import Mathlib

/-!
Shallow embedding of `src/array.rs` from the uiua array core: the generic
shape-tagged flat-storage array type, its element-value contract, row
decomposition, fill-sentinel ragged semantics, and comparison operators.
Rust `Vec<T>` becomes `List`, `usize` becomes `Nat`, iterators become lists,
`Result` becomes `Except`, and a Rust panic site (`chunks_mut` with chunk
size 0) becomes an `Option` result. Debug-only assertions
(`validate_shape`) are modelled as a separate proposition, matching release
builds where the check is elided.
-/

namespace Uiua

/-- The element-value contract (Rust trait `ArrayValue`): a total order,
a reserved fill sentinel, the sentinel-recognition predicate and the
default value of the `fill` flag for freshly constructed arrays. -/
class ArrayValue (α : Type) where
  cmp : α → α → Ordering
  fill_value : α
  is_fill_value : α → Bool
  default_fill : Bool

/-- Rust struct `Array<T>`: a shape, row-major flat data, and the ragged-join
fill flag. -/
structure Array (α : Type) where
  shape : List Nat
  data : List α
  fill : Bool
deriving DecidableEq

/-- Rust free function `validate_shape`: the debug-only assertion that the
product of the shape equals the flat data length (invariant I1). -/
def validate_shape {α : Type} (shape : List Nat) (data : List α) : Prop :=
  shape.prod = data.length

instance {α : Type} (shape : List Nat) (data : List α) :
    Decidable (validate_shape shape data) := by
  unfold validate_shape; infer_instance

/-- Rust `Array::new` (release behaviour: the `validate_shape` debug assert
is elided); the fill flag starts at the element kind's `DEFAULT_FILL`. -/
def Array.new {α : Type} [ArrayValue α] (shape : List Nat) (data : List α) :
    Array α :=
  ⟨shape, data, ArrayValue.default_fill α⟩

/-- Rust `Default for Array<T>`: the canonical empty array, shape `[0]`. -/
def Array.default {α : Type} [ArrayValue α] : Array α :=
  ⟨[0], [], ArrayValue.default_fill α⟩

/-- Rust `Array::unit`: a scalar (rank-0) array holding one element. -/
def Array.unit {α : Type} [ArrayValue α] (x : α) : Array α :=
  Array.new [] [x]

/-- Rust `Array::rank`: the shape length. -/
def Array.rank {α : Type} (a : Array α) : Nat :=
  a.shape.length

/-- Rust `Array::row_count`: first shape dimension, or 1 for a scalar. -/
def Array.row_count {α : Type} (a : Array α) : Nat :=
  a.shape.headD 1

/-- Rust `Array::flat_len`: the raw flat data length. -/
def Array.flat_len {α : Type} (a : Array α) : Nat :=
  a.data.length

/-- Rust `Array::row_len`: product of all shape dimensions but the first. -/
def Array.row_len {α : Type} (a : Array α) : Nat :=
  a.shape.tail.prod

/-- Rust `Array::row`: the i-th top-level slice
`data[i * row_len .. (i+1) * row_len]`. -/
def Array.row {α : Type} (a : Array α) (i : Nat) : List α :=
  (a.data.drop (i * a.row_len)).take a.row_len

/-- Rust `Array::rows`: one `Row` view per index in `0..row_count`, in
ascending order; each view dereferences to `row(i)`, which is what we
record. -/
def Array.rows {α : Type} (a : Array α) : List (List α) :=
  (List.range a.row_count).map a.row

/-- Chunks of size `k` (the documented semantics of Rust
`slice::chunks_mut` for `k > 0`: consecutive chunks of `k` elements, the
last possibly shorter). -/
def chunksOf {α : Type} (k : Nat) (l : List α) : List (List α) :=
  (List.range ((l.length + k - 1) / k)).map (fun i => (l.drop (i * k)).take k)

/-- Rust `Array::rows_mut`, which calls `data.chunks_mut(row_len)`;
`chunks_mut` panics when the chunk size is 0, modelled as `none`. -/
def Array.rows_mut {α : Type} (a : Array α) : Option (List (List α)) :=
  if a.row_len = 0 then none else some (chunksOf a.row_len a.data)

/-- Rust `Array::into_rows`: splits into `row_count` owned rank-reduced
arrays, each draining `row_len` elements from the front of the flat data
(the k-th take sees `data[k * row_len ..]`). -/
def Array.into_rows {α : Type} [ArrayValue α] (a : Array α) : List (Array α) :=
  (List.range (match a.shape with | [] => 1 | n :: _ => n)).map
    (fun i => Array.new a.shape.tail ((a.data.drop (i * a.row_len)).take a.row_len))

/-- The loop body of Rust `Array::into_rows_rev`: each step drains the last
`row_len` elements (`drain(len - row_len ..)`) and yields them as a row. -/
def intoRowsRevGo {α : Type} [ArrayValue α] (rs : List Nat) (rl : Nat) :
    Nat → List α → List (Array α)
  | 0, _ => []
  | k + 1, d =>
      Array.new rs (d.drop (d.length - rl)) :: intoRowsRevGo rs rl k (d.take (d.length - rl))

/-- Rust `Array::into_rows_rev`: same partition as `into_rows`, drained from
the back of the flat storage, rows yielded in descending index order. -/
def Array.into_rows_rev {α : Type} [ArrayValue α] (a : Array α) : List (Array α) :=
  intoRowsRevGo a.shape.tail a.row_len
    (match a.shape with | [] => 1 | n :: _ => n) a.data

/-- Rust `Array::val_cmp`: cross-kind ordering; pairwise total-order
comparison of the zipped flat data (the other side converted first), the
first non-`Equal` verdict wins, full tie broken by flat length. -/
def Array.val_cmp {α β : Type} [ArrayValue α] (conv : β → α)
    (a : Array α) (b : Array β) : Ordering :=
  ((((a.data.zip b.data).map (fun p => ArrayValue.cmp p.1 (conv p.2))).find?
      (fun o => o != Ordering.eq)).getD (compare a.data.length b.data.length))

/-- Rust `Ord for Array<T>`: same comparison as `val_cmp` with no
conversion — pairwise on zipped flat data in storage order, length
tie-break. -/
def Array.cmp {α : Type} [ArrayValue α] (a b : Array α) : Ordering :=
  ((((a.data.zip b.data).map (fun p => ArrayValue.cmp p.1 p.2)).find?
      (fun o => o != Ordering.eq)).getD (compare a.data.length b.data.length))

/-- The trimmed run a fill-aware equality side compares: skip the leading
run of fill sentinels (`skip_while(is_fill_value)`), then take up to the
next sentinel (`take_while(!is_fill_value)`). -/
def fillTrim {α : Type} [ArrayValue α] (l : List α) : List α :=
  (l.dropWhile (fun x => ArrayValue.is_fill_value x)).takeWhile (fun x => !ArrayValue.is_fill_value x)

/-- Rust `PartialEq for Array<T>` (`Array::eq`): shapes and flat lengths
must match; then the two fill-trimmed runs are compared pairwise (the zip
stops at the shorter run). -/
def Array.eq {α : Type} [ArrayValue α] (a b : Array α) : Bool :=
  (decide (a.shape = b.shape) && a.data.length == b.data.length) &&
    ((fillTrim a.data).zip (fillTrim b.data)).all
      (fun p => ArrayValue.cmp p.1 p.2 == Ordering.eq)

/-- Rust `Array::empty_row`: a clone of self when rank 0, otherwise an
array with the leading dimension dropped and no data. -/
def Array.empty_row {α : Type} [ArrayValue α] (a : Array α) : Array α :=
  if a.rank = 0 then a else Array.new a.shape.tail []

/-- The trailing run of all-fill rows that Rust `Array::truncate` scans off
(its `for (i, row) in self.rows().enumerate().rev()` loop with `break` at
the first row holding any non-sentinel element). -/
def Array.trailing_fill_rows {α : Type} [ArrayValue α] (a : Array α) : Nat :=
  (a.rows.reverse.takeWhile (fun r => r.all (fun x => ArrayValue.is_fill_value x))).length

/-- Rust `Array::truncate`: a no-op unless `fill` is set and rank ≥ 1;
otherwise shrinks the data and leading dimension to the new row count
(rows past the last non-all-fill row are removed). -/
def Array.truncate {α : Type} [ArrayValue α] (a : Array α) : Array α :=
  if a.fill = false ∨ a.rank = 0 then a
  else
    let new_len := a.row_count - a.trailing_fill_rows
    ⟨new_len :: a.shape.tail, a.data.take (new_len * a.row_len), a.fill⟩

/-- The accumulation loop of Rust `Array::from_row_arrays`: each further
row has its fill flag OR-ed with the caller's `fill`, the second row is
merged by `couple` (`c`), later rows by `join_impl(.., false, env)` (`j`);
failures propagate. Returns the accumulated value and the row count. -/
def fromRowArraysLoop {α E : Type} (c j : Array α → Array α → Except E (Array α))
    (fill : Bool) : Array α → Nat → List (Array α) → Except E (Array α × Nat)
  | value, count, [] => Except.ok (value, count)
  | value, count, row :: rest => do
      let row := { row with fill := row.fill || fill }
      let count := count + 1
      let value ← if count = 2 then c value row else j value row
      fromRowArraysLoop c j fill value count rest

/-- Rust `Array::from_row_arrays`: rebuilds one array from a sequence of
row arrays; zero rows give the canonical default, a single row gets a new
leading dimension 1 inserted at the front of its shape. The external
couple and join operations are passed in as `c` and `j`. -/
def Array.from_row_arrays {α E : Type} [ArrayValue α]
    (c j : Array α → Array α → Except E (Array α))
    (values : List (Array α)) (fill : Bool) : Except E (Array α) :=
  match values with
  | [] => Except.ok Array.default
  | v :: rest => do
      let (value, count) ← fromRowArraysLoop c j fill v 1 rest
      Except.ok (if count = 1 then { value with shape := 1 :: value.shape } else value)

/-- A shallow model of Rust `f64` restricted to the values the array core
distinguishes: ordinary (here integral) numbers and NaN. -/
inductive F64 where
  | num : Int → F64
  | nan : F64
deriving DecidableEq

/-- Rust `f64::is_nan`. -/
def F64.isNan : F64 → Bool
  | .nan => true
  | .num _ => false

/-- Rust `ArrayValue for f64`: `partial_cmp` (defined only when neither
side is NaN) with the is-NaN rank as the fallback total order. -/
def F64.cmp (a b : F64) : Ordering :=
  match a, b with
  | .num x, .num y => compare x y
  | _, _ => compare a.isNan b.isNan

instance : ArrayValue F64 :=
  ⟨F64.cmp, F64.nan, F64.isNan, false⟩

/-- Rust `ArrayValue for char`: order by the character order, fill sentinel
`'\x00'`, and `DEFAULT_FILL = true` (text arrays are the ragged-join
common case). -/
instance : ArrayValue Char :=
  ⟨fun a b => compare a b, Char.ofNat 0, fun c => c == Char.ofNat 0, true⟩

/-- The UTF-8 byte length of a Rust `String` holding these characters
(Rust `str::len` counts bytes, not characters). -/
def utf8Len (s : List Char) : Nat :=
  (s.map Char.utf8Size).sum

/-- Rust `From<String> for Array<char>`:
`Array::new(vec![s.len()], s.chars().collect())` — the shape uses the
byte length while the data holds the characters. -/
def fromString (s : List Char) : Array Char :=
  Array.new [utf8Len s] s

/-- Rust `From<T> for Array<T>`: a scalar array. -/
def fromValue {α : Type} [ArrayValue α] (x : α) : Array α :=
  Array.unit x

/-- Rust `From<Vec<T>> for Array<T>`: a rank-1 array over the vector. -/
def fromVec {α : Type} [ArrayValue α] (data : List α) : Array α :=
  Array.new [data.length] data

/-- Rust `From<(Vec<usize>, Vec<T>)> for Array<T>`. -/
def fromShapeData {α : Type} [ArrayValue α] (shape : List Nat) (data : List α) :
    Array α :=
  Array.new shape data

/-- Rust `FromIterator<String> for Array<char>`: a rank-2 character array,
every line padded with `'\x00'` to the longest line's character count. -/
def fromLines (lines : List (List Char)) : Array Char :=
  let max_len := (lines.map List.length).foldr max 0
  Array.new [lines.length, max_len]
    (lines.flatMap (fun line => line ++ List.replicate (max_len - line.length) (Char.ofNat 0)))

/-- Pairwise lexicographic flat-data comparison as the spec phrases it:
walk the two sequences in storage order with the element total order and,
when every compared pair is `Equal`, order the shorter before the longer. -/
def cmpData {α β : Type} (c : α → β → Ordering) : List α → List β → Ordering
  | [], [] => Ordering.eq
  | [], _ :: _ => Ordering.lt
  | _ :: _, [] => Ordering.gt
  | x :: xs, y :: ys =>
      match c x y with
      | Ordering.eq => cmpData c xs ys
      | o => o

/-- A concrete valid 2×2 numeric array used by several witnesses. -/
def sample22 : Array F64 :=
  ⟨[2, 2], [F64.num 1, F64.num 2, F64.num 3, F64.num 4], false⟩

/-! Helper lemmas shared by the claim proofs. -/

/-- Slicing a row out of a front-truncated buffer gives the same row as
slicing the original buffer, as long as the row lies inside the kept
prefix. -/
theorem take_drop_take {α : Type} (d : List α) (rl i m : Nat) (h : i < m) :
    ((d.take (m * rl)).drop (i * rl)).take rl = (d.drop (i * rl)).take rl := by
  rw [List.drop_take, List.take_take]
  have hge : rl ≤ m * rl - i * rl := by
    have : (i + 1) * rl ≤ m * rl := Nat.mul_le_mul_right rl h
    have := Nat.sub_le_sub_right this (i * rl)
    simpa [Nat.add_mul, Nat.add_sub_cancel_left] using this
  rw [min_eq_left hge]

/-- The element at which `takeWhile` stops (when it stops before the end of
the list) does not satisfy the predicate. -/
theorem takeWhile_stop {α : Type} (p : α → Bool) :
    ∀ (l : List α) (h : (l.takeWhile p).length < l.length),
      p (l.get ⟨(l.takeWhile p).length, h⟩) = false := by
  intro l
  induction l with
  | nil => intro h; simp at h
  | cons x xs ih =>
      intro h
      by_cases hx : p x = true
      · simpa [List.takeWhile_cons, hx] using ih (by simpa [List.takeWhile_cons, hx] using h)
      · simp only [Bool.not_eq_true] at hx
        simp [List.takeWhile_cons, hx]

/-- Membership in a zip, phrased positionally: a predicate holds of every
zipped pair exactly when it holds at every index below both lengths. -/
theorem forall_zip_iff_index {α β : Type} (P : α → β → Prop) :
    ∀ (l₁ : List α) (l₂ : List β),
      (∀ p ∈ l₁.zip l₂, P p.1 p.2) ↔
        ∀ i (h₁ : i < l₁.length) (h₂ : i < l₂.length),
          P (l₁.get ⟨i, h₁⟩) (l₂.get ⟨i, h₂⟩) := by
  intro l₁
  induction l₁ with
  | nil => intro l₂; simp
  | cons x xs ih =>
      intro l₂
      cases l₂ with
      | nil => simp
      | cons y ys =>
          constructor
          · intro hall i h₁ h₂
            match i with
            | 0 => exact hall (x, y) (by simp [List.zip_cons_cons])
            | i + 1 =>
                exact (ih ys).1 (fun p hp => hall p (by simp [List.zip_cons_cons, hp])) i
                  (Nat.lt_of_succ_lt_succ h₁) (Nat.lt_of_succ_lt_succ h₂)
          · intro hidx p hp
            rw [List.zip_cons_cons] at hp
            rcases List.mem_cons.1 hp with hp | hp
            · subst hp; exact hidx 0 (Nat.succ_pos _) (Nat.succ_pos _)
            · exact (ih ys).2
                (fun i h₁ h₂ => hidx (i + 1) (Nat.succ_lt_succ h₁) (Nat.succ_lt_succ h₂)) p hp

/-- `compare` on `Nat` is invariant under adding one to both sides. -/
theorem nat_compare_succ_succ (n m : Nat) : compare (n + 1) (m + 1) = compare n m := by
  simp [Nat.compare_def_lt, Nat.succ_lt_succ_iff]

/-- The find-first-disagreement form used by `Ord for Array` and `val_cmp`
coincides with the recursive pairwise walk `cmpData`. -/
theorem find_cmp_eq_cmpData {α β : Type} (c : α → β → Ordering) :
    ∀ (l₁ : List α) (l₂ : List β),
      ((((l₁.zip l₂).map (fun p => c p.1 p.2)).find?
          (fun o => o != Ordering.eq)).getD (compare l₁.length l₂.length)) =
        cmpData c l₁ l₂ := by
  intro l₁
  induction l₁ with
  | nil =>
      intro l₂
      cases l₂ with
      | nil => rfl
      | cons y ys => simp [cmpData, Nat.compare_def_lt]
  | cons x xs ih =>
      intro l₂
      cases l₂ with
      | nil => simp [cmpData, Nat.compare_def_lt]
      | cons y ys =>
          rw [List.zip_cons_cons, List.map_cons, List.find?_cons]
          cases hc : c x y with
          | eq =>
              show (List.find? (fun o => o != Ordering.eq)
                  ((xs.zip ys).map (fun p => c p.1 p.2))).getD
                    (compare (x :: xs).length (y :: ys).length) = cmpData c (x :: xs) (y :: ys)
              rw [List.length_cons, List.length_cons, nat_compare_succ_succ, ih ys]
              conv_rhs => rw [cmpData, hc]
          | lt =>
              show Ordering.lt = cmpData c (x :: xs) (y :: ys)
              conv_rhs => rw [cmpData, hc]
          | gt =>
              show Ordering.gt = cmpData c (x :: xs) (y :: ys)
              conv_rhs => rw [cmpData, hc]

/-- Unfolding of `truncate` in its active branch (fill set and rank at
least 1). -/
theorem truncate_of_not_stop {α : Type} [ArrayValue α] (a : Array α)
    (h : ¬(a.fill = false ∨ a.rank = 0)) :
    a.truncate =
      ⟨(a.row_count - a.trailing_fill_rows) :: a.shape.tail,
        a.data.take ((a.row_count - a.trailing_fill_rows) * a.row_len), a.fill⟩ := by
  rw [Array.truncate, if_neg h]

/-- Positional form of indexing into `rows`. -/
theorem rows_getElem {α : Type} (a : Array α) (j : Nat) (hj : j < a.rows.length) :
    a.rows[j] = a.row j := by
  simp only [Array.rows] at hj ⊢
  rw [List.getElem_map, List.getElem_range]

/-- The reverse-drain loop of `into_rows_rev`, on a buffer of exactly
`n * rl` elements, produces exactly the reversed sequence of the forward
front slices. -/
theorem intoRowsRevGo_eq {α : Type} [ArrayValue α] (rs : List Nat) (rl : Nat) :
    ∀ (n : Nat) (d : List α), d.length = n * rl →
      intoRowsRevGo rs rl n d =
        ((List.range n).map
          (fun i => Array.new rs ((d.drop (i * rl)).take rl))).reverse := by
  intro n
  induction n with
  | zero => intro d hd; simp [intoRowsRevGo]
  | succ m ih =>
      intro d hd
      have hmul : d.length = m * rl + rl := by rw [hd, Nat.succ_mul]
      have hsub : d.length - rl = m * rl := by omega
      have htl : (d.take (m * rl)).length = m * rl := by
        rw [List.length_take]; omega
      rw [intoRowsRevGo, hsub, ih (d.take (m * rl)) htl,
        List.range_succ, List.map_append, List.reverse_append]
      simp only [List.map_cons, List.map_nil, List.reverse_cons, List.reverse_nil,
        List.nil_append, List.singleton_append]
      congr 1
      · congr 1
        rw [List.take_of_length_le (by rw [List.length_drop]; omega)]
      · congr 1
        apply List.map_congr_left
        intro i hi
        rw [List.mem_range] at hi
        rw [take_drop_take d rl i m hi]

/-! Claim theorems. -/

/-- C1: the construction-path invariant `flat_len() == product(shape)` is
violated by `From<String> for Array<char>` on the one-character string
"é" (U+00E9): the shape records the UTF-8 byte length 2 while the data
holds a single character, tripping the code's own `validate_shape`
assertion. -/
theorem fromString_breaks_invariant :
    (fromString [Char.ofNat 233]).shape = [2] ∧
    (fromString [Char.ofNat 233]).flat_len = 1 ∧
    ¬ validate_shape (fromString [Char.ofNat 233]).shape (fromString [Char.ofNat 233]).data := by
  refine ⟨rfl, rfl, by decide⟩

/-- C10: `Ord::cmp` never inspects the shape — a rank-1 and a rank-2 array
over the same four numbers compare `Equal` while `PartialEq::eq` rejects
them for their different shapes. -/
theorem cmp_ignores_shape_eq_does_not :
    Array.cmp (⟨[4], [F64.num 1, F64.num 2, F64.num 3, F64.num 4], false⟩ : Array F64)
        ⟨[2, 2], [F64.num 1, F64.num 2, F64.num 3, F64.num 4], false⟩ = Ordering.eq ∧
    Array.eq (⟨[4], [F64.num 1, F64.num 2, F64.num 3, F64.num 4], false⟩ : Array F64)
        ⟨[2, 2], [F64.num 1, F64.num 2, F64.num 3, F64.num 4], false⟩ = false := by
  decide

/-- C4: `from_row_arrays` on zero rows returns the canonical empty array
(shape `[0]`, no data, default fill), and on exactly one row returns that
row with a leading dimension of size 1 inserted at the front of its shape
and its data (and fill flag) unchanged — for any external couple/join
operations `c` and `j`, which are never invoked in these two cases. -/
theorem from_row_arrays_nil_single {α E : Type} [ArrayValue α]
    (c j : Array α → Array α → Except E (Array α)) (fill : Bool) (r : Array α) :
    Array.from_row_arrays c j [] fill =
      Except.ok (⟨[0], [], ArrayValue.default_fill α⟩ : Array α) ∧
    Array.from_row_arrays c j [r] fill = Except.ok ⟨1 :: r.shape, r.data, r.fill⟩ :=
  ⟨rfl, rfl⟩

/-- C7: `empty_row` returns a clone of self on a rank-0 array, and on any
array of rank at least 1 an array with no data elements whose shape is the
input's shape without its leading dimension. -/
theorem empty_row_spec {α : Type} [ArrayValue α] (a : Array α) :
    (a.rank = 0 → a.empty_row = a) ∧
    (1 ≤ a.rank →
      a.empty_row.shape = a.shape.tail ∧ a.empty_row.data = [] ∧ a.empty_row.flat_len = 0) := by
  constructor
  · intro h; simp [Array.empty_row, h]
  · intro h
    have h0 : ¬ a.rank = 0 := by omega
    simp [Array.empty_row, h0, Array.new, Array.flat_len]

/-- Witness for C7 at a concrete rank-2 array. -/
theorem empty_row_spec_witness :
    1 ≤ (⟨[2, 3], [F64.num 1, F64.num 2, F64.num 3, F64.num 4, F64.num 5, F64.num 6],
        false⟩ : Array F64).rank ∧
    ((⟨[2, 3], [F64.num 1, F64.num 2, F64.num 3, F64.num 4, F64.num 5, F64.num 6],
        false⟩ : Array F64).empty_row.shape =
      (⟨[2, 3], [F64.num 1, F64.num 2, F64.num 3, F64.num 4, F64.num 5, F64.num 6],
        false⟩ : Array F64).shape.tail ∧
      (⟨[2, 3], [F64.num 1, F64.num 2, F64.num 3, F64.num 4, F64.num 5, F64.num 6],
        false⟩ : Array F64).empty_row.data = [] ∧
      (⟨[2, 3], [F64.num 1, F64.num 2, F64.num 3, F64.num 4, F64.num 5, F64.num 6],
        false⟩ : Array F64).empty_row.flat_len = 0) :=
  ⟨by decide,
    (empty_row_spec (⟨[2, 3], [F64.num 1, F64.num 2, F64.num 3, F64.num 4, F64.num 5,
      F64.num 6], false⟩ : Array F64)).2 (by decide)⟩

/-- C8: `row_count()` of a rank-0 array is 1, and `into_rows()` on a valid
rank-0 array yields exactly one row whose shape and data are those of the
original array. -/
theorem scalar_row_count_into_rows {α : Type} [ArrayValue α] (a : Array α)
    (h0 : a.rank = 0) (h1 : validate_shape a.shape a.data) :
    a.row_count = 1 ∧ a.into_rows.length = 1 ∧
    (a.into_rows.getD 0 Array.default).shape = a.shape ∧
    (a.into_rows.getD 0 Array.default).data = a.data := by
  have hsh : a.shape = [] := List.length_eq_zero.1 h0
  have hlen : a.data.length = 1 := by
    have := h1; rw [validate_shape, hsh] at this; simpa using this.symm
  have htake : a.data.take 1 = a.data := List.take_of_length_le (by omega)
  refine ⟨by simp [Array.row_count, hsh], ?_, ?_, ?_⟩ <;>
    simp [Array.into_rows, hsh, Array.row_len, Array.new, List.range_succ, htake]

/-- Boolean equality on `Ordering` agrees with propositional equality. -/
theorem ordering_beq_eq_iff (o : Ordering) :
    (o == Ordering.eq) = true ↔ o = Ordering.eq := by
  cases o <;> decide

/-- Specialisation of `forall_zip_iff_index` to the pairwise-Equal check
of fill-aware equality. -/
theorem zip_cmp_all_iff {α : Type} [ArrayValue α] (l₁ l₂ : List α) :
    (∀ p ∈ l₁.zip l₂, ArrayValue.cmp p.1 p.2 = Ordering.eq) ↔
      ∀ i (h₁ : i < l₁.length) (h₂ : i < l₂.length),
        ArrayValue.cmp (l₁.get ⟨i, h₁⟩) (l₂.get ⟨i, h₂⟩) = Ordering.eq :=
  forall_zip_iff_index (fun x y => ArrayValue.cmp x y = Ordering.eq) l₁ l₂

/-- C2: `PartialEq::eq` returns true exactly when the shapes are equal, the
flat data lengths are equal, and after the fill-trim (skip the leading
fill run, cut at the next sentinel) the two runs agree pairwise up to the
shorter run's length; in particular, arrays of different shapes are never
equal. -/
theorem array_eq_iff {α : Type} [ArrayValue α] (a b : Array α) :
    (a.eq b = true ↔
      a.shape = b.shape ∧ a.data.length = b.data.length ∧
        ∀ i (h₁ : i < (fillTrim a.data).length) (h₂ : i < (fillTrim b.data).length),
          ArrayValue.cmp ((fillTrim a.data).get ⟨i, h₁⟩) ((fillTrim b.data).get ⟨i, h₂⟩) =
            Ordering.eq) ∧
    (a.shape ≠ b.shape → a.eq b = false) := by
  have base : (a.eq b = true) ↔
      ((a.shape = b.shape ∧ a.data.length = b.data.length) ∧
        ∀ p ∈ (fillTrim a.data).zip (fillTrim b.data),
          ArrayValue.cmp p.1 p.2 = Ordering.eq) := by
    rw [Array.eq]
    simp [List.all_eq_true, ordering_beq_eq_iff]
  constructor
  · rw [base, zip_cmp_all_iff]
    exact and_assoc
  · intro hne
    have := (not_iff_not.2 base).2 (by tauto)
    simpa using this

/-- Witness for C2's different-shape clause at two concrete arrays. -/
theorem array_eq_iff_witness :
    (⟨[1], [F64.num 7], false⟩ : Array F64).shape ≠
      (⟨[], [F64.num 7], false⟩ : Array F64).shape ∧
    Array.eq (⟨[1], [F64.num 7], false⟩ : Array F64) ⟨[], [F64.num 7], false⟩ = false :=
  ⟨by decide,
    (array_eq_iff (⟨[1], [F64.num 7], false⟩ : Array F64) ⟨[], [F64.num 7], false⟩).2
      (by decide)⟩

/-- C3: `Ord::cmp` and `val_cmp` compare the flat data pairwise in storage
order with the element total order — no fill-sentinel skipping — and fall
back to comparing the flat lengths (shorter before longer) when every
compared pair is Equal; `cmpData` is exactly that walk. For the number
kind a NaN position goes through the is-NaN rank fallback rather than
being skipped, so two `[1.0, NaN]` arrays are `cmp`-Equal (and also
`eq`-equal, there via fill skipping). -/
theorem array_cmp_val_cmp_spec {α β : Type} [ArrayValue α] (conv : β → α)
    (a b : Array α) (u : Array α) (v : Array β) :
    Array.cmp a b = cmpData ArrayValue.cmp a.data b.data ∧
    Array.val_cmp conv u v =
      cmpData (fun x y => ArrayValue.cmp x (conv y)) u.data v.data ∧
    F64.cmp F64.nan F64.nan = Ordering.eq ∧
    Array.cmp (⟨[2], [F64.num 1, F64.nan], true⟩ : Array F64)
      ⟨[2], [F64.num 1, F64.nan], true⟩ = Ordering.eq ∧
    Array.eq (⟨[2], [F64.num 1, F64.nan], true⟩ : Array F64)
      ⟨[2], [F64.num 1, F64.nan], true⟩ = true := by
  refine ⟨?_, ?_, by decide, by decide, by decide⟩
  · exact find_cmp_eq_cmpData ArrayValue.cmp a.data b.data
  · exact find_cmp_eq_cmpData (fun x y => ArrayValue.cmp x (conv y)) u.data v.data

/-- C9 counterexample: the valid shape-`[2, 0]` array (flat length 0 equals
the shape product) has `row_count() = 2`, but `rows_mut()` hits the
`chunks_mut` panic on chunk size `row_len() = 0` instead of yielding two
row slices. -/
theorem rows_mut_panics_on_zero_row_len :
    validate_shape ([2, 0] : List Nat) ([] : List F64) ∧
    (⟨[2, 0], [], false⟩ : Array F64).row_count = 2 ∧
    Array.rows_mut (⟨[2, 0], [], false⟩ : Array F64) = none := by
  decide

/-- C9 (amended): `rows()` yields exactly `row_count()` row views in
ascending index order, the i-th referencing the i-th top-level slice, and
`rows_mut()` — provided `row_len()` is nonzero, since `chunks_mut` panics
on chunk size 0 — yields exactly `row_count()` mutable slices of
`row_len()` elements each, in the same ascending order. -/
theorem rows_rows_mut_spec {α : Type} (a : Array α)
    (hinv : validate_shape a.shape a.data) :
    (a.rows.length = a.row_count ∧
      ∀ i, i < a.row_count → a.rows.getD i [] = a.row i) ∧
    (0 < a.row_len →
      ∃ l, a.rows_mut = some l ∧ l.length = a.row_count ∧
        ∀ i, i < a.row_count →
          l.getD i [] = a.row i ∧ (l.getD i []).length = a.row_len) := by
  have hlen : a.data.length = a.row_count * a.row_len := by
    rcases hsh : a.shape with _ | ⟨n, t⟩ <;>
      rw [validate_shape, hsh] at hinv <;>
      simp [Array.row_count, Array.row_len, hsh, ← hinv]
  constructor
  · refine ⟨by simp [Array.rows], fun i hi => ?_⟩
    have hi' : i < a.rows.length := by simpa [Array.rows] using hi
    rw [List.getD_eq_getElem _ _ hi']
    show ((List.range a.row_count).map a.row)[i] = a.row i
    rw [List.getElem_map, List.getElem_range]
  · intro hrl
    refine ⟨chunksOf a.row_len a.data, ?_, ?_, ?_⟩
    · rw [Array.rows_mut, if_neg (by omega)]
    · have hN : (a.data.length + a.row_len - 1) / a.row_len = a.row_count := by
        rw [hlen, Nat.add_sub_assoc (by omega : 1 ≤ a.row_len),
          Nat.mul_comm a.row_count a.row_len, Nat.mul_add_div hrl,
          Nat.div_eq_of_lt (by omega : a.row_len - 1 < a.row_len)]
        omega
      simp [chunksOf, hN]
    · intro i hi
      have hN : (a.data.length + a.row_len - 1) / a.row_len = a.row_count := by
        rw [hlen, Nat.add_sub_assoc (by omega : 1 ≤ a.row_len),
          Nat.mul_comm a.row_count a.row_len, Nat.mul_add_div hrl,
          Nat.div_eq_of_lt (by omega : a.row_len - 1 < a.row_len)]
        omega
      have hi' : i < (chunksOf a.row_len a.data).length := by
        simpa [chunksOf, hN] using hi
      have hget : (chunksOf a.row_len a.data).getD i [] = a.row i := by
        rw [List.getD_eq_getElem _ _ hi']
        show ((List.range ((a.data.length + a.row_len - 1) / a.row_len)).map
          (fun j => (a.data.drop (j * a.row_len)).take a.row_len))[i] = a.row i
        rw [List.getElem_map, List.getElem_range]
        rfl
      refine ⟨hget, ?_⟩
      rw [hget, Array.row, List.length_take, List.length_drop, hlen]
      have hle : i * a.row_len + a.row_len ≤ a.row_count * a.row_len := by
        have := Nat.mul_le_mul_right a.row_len (by omega : i + 1 ≤ a.row_count)
        simpa [Nat.add_mul] using this
      have : a.row_len ≤ a.row_count * a.row_len - i * a.row_len :=
        Nat.le_sub_of_add_le (by omega)
      omega

/-- Witness for C9's amended statement at a concrete 2×2 array. -/
theorem rows_rows_mut_spec_witness :
    validate_shape sample22.shape sample22.data ∧
    0 < sample22.row_len ∧
    ((sample22.rows.length = sample22.row_count ∧
        ∀ i, i < sample22.row_count → sample22.rows.getD i [] = sample22.row i) ∧
      (0 < sample22.row_len →
        ∃ l, sample22.rows_mut = some l ∧ l.length = sample22.row_count ∧
          ∀ i, i < sample22.row_count →
            l.getD i [] = sample22.row i ∧
            (l.getD i []).length = sample22.row_len)) :=
  ⟨by decide, by decide, rows_rows_mut_spec sample22 (by decide)⟩

/-- Witness for C8 at the scalar array `unit(5)`. -/
theorem scalar_row_count_into_rows_witness :
    (Array.unit (F64.num 5)).rank = 0 ∧
    validate_shape (Array.unit (F64.num 5)).shape (Array.unit (F64.num 5)).data ∧
    ((Array.unit (F64.num 5)).row_count = 1 ∧
      (Array.unit (F64.num 5)).into_rows.length = 1 ∧
      ((Array.unit (F64.num 5)).into_rows.getD 0 Array.default).shape =
        (Array.unit (F64.num 5)).shape ∧
      ((Array.unit (F64.num 5)).into_rows.getD 0 Array.default).data =
        (Array.unit (F64.num 5)).data) :=
  ⟨by decide, by decide,
    scalar_row_count_into_rows (Array.unit (F64.num 5)) (by decide) (by decide)⟩

/-- C5: `into_rows_rev()` yields the same number of rows as `into_rows()`,
and its k-th row has the same shape and the same flat data as the
(count − 1 − k)-th row of `into_rows()` — the partition content is
identical, only the enumeration order is reversed. -/
theorem into_rows_rev_reverses {α : Type} [ArrayValue α] (a : Array α)
    (hinv : validate_shape a.shape a.data) :
    a.into_rows_rev = a.into_rows.reverse ∧
    a.into_rows_rev.length = a.into_rows.length ∧
    ∀ k, k < a.into_rows.length →
      (a.into_rows_rev.getD k Array.default).shape =
        (a.into_rows.getD (a.into_rows.length - 1 - k) Array.default).shape ∧
      (a.into_rows_rev.getD k Array.default).data =
        (a.into_rows.getD (a.into_rows.length - 1 - k) Array.default).data := by
  have hrc : a.data.length =
      (match a.shape with | [] => 1 | n :: _ => n) * a.row_len := by
    rcases hsh : a.shape with _ | ⟨n, t⟩ <;>
      rw [validate_shape, hsh] at hinv <;>
      simp [Array.row_len, hsh, ← hinv]
  have hrev : a.into_rows_rev = a.into_rows.reverse := by
    rw [Array.into_rows_rev, Array.into_rows]
    exact intoRowsRevGo_eq a.shape.tail a.row_len _ a.data hrc
  have harr : ∀ k, k < a.into_rows.length →
      a.into_rows_rev.getD k Array.default =
        a.into_rows.getD (a.into_rows.length - 1 - k) Array.default := by
    intro k hk
    have hk2 : k < a.into_rows_rev.length := by
      rw [hrev, List.length_reverse]; exact hk
    rw [List.getD_eq_getElem _ _ hk2,
      List.getD_eq_getElem _ _ (by omega : a.into_rows.length - 1 - k < a.into_rows.length)]
    simp only [hrev]
    rw [List.getElem_reverse]
  exact ⟨hrev, by rw [hrev, List.length_reverse],
    fun k hk => ⟨congrArg Array.shape (harr k hk), congrArg Array.data (harr k hk)⟩⟩

/-- Witness for C5 at a concrete 2×2 array. -/
theorem into_rows_rev_reverses_witness :
    validate_shape sample22.shape sample22.data ∧
    (sample22.into_rows_rev = sample22.into_rows.reverse ∧
      sample22.into_rows_rev.length = sample22.into_rows.length ∧
      ∀ k, k < sample22.into_rows.length →
        (sample22.into_rows_rev.getD k Array.default).shape =
          (sample22.into_rows.getD
            (sample22.into_rows.length - 1 - k) Array.default).shape ∧
        (sample22.into_rows_rev.getD k Array.default).data =
          (sample22.into_rows.getD
            (sample22.into_rows.length - 1 - k) Array.default).data) :=
  ⟨by decide, into_rows_rev_reverses sample22 (by decide)⟩

/-- C6: `truncate()` is idempotent — calling it twice leaves the array
(shape, flat data and fill flag) exactly as one call does. One call is a
no-op unless the fill flag is set and rank is at least 1, and otherwise
removes the maximal run of trailing all-fill rows; after that removal the
last remaining row is not all-fill, so a second scan removes nothing. -/
theorem truncate_idempotent {α : Type} [ArrayValue α] (a : Array α)
    (hinv : validate_shape a.shape a.data) :
    a.truncate.truncate = a.truncate := by
  by_cases hstop : a.fill = false ∨ a.rank = 0
  · have h1 : a.truncate = a := by rw [Array.truncate, if_pos hstop]
    rw [h1]
    exact h1
  · have hfill : a.fill = true := by
      rcases Bool.eq_false_or_eq_true a.fill with h | h
      · exact h
      · exact absurd (Or.inl h) hstop
    have htr := truncate_of_not_stop a hstop
    rw [htr]
    have hstop2 : ¬ ((⟨(a.row_count - a.trailing_fill_rows) :: a.shape.tail,
          a.data.take ((a.row_count - a.trailing_fill_rows) * a.row_len),
          a.fill⟩ : Array α).fill = false ∨
        (⟨(a.row_count - a.trailing_fill_rows) :: a.shape.tail,
          a.data.take ((a.row_count - a.trailing_fill_rows) * a.row_len),
          a.fill⟩ : Array α).rank = 0) := by
      simp [hfill, Array.rank]
    rw [truncate_of_not_stop _ hstop2]
    have hb_row : ∀ i, i < a.row_count - a.trailing_fill_rows →
        (⟨(a.row_count - a.trailing_fill_rows) :: a.shape.tail,
          a.data.take ((a.row_count - a.trailing_fill_rows) * a.row_len),
          a.fill⟩ : Array α).row i = a.row i := by
      intro i hi
      simp only [Array.row, Array.row_len, List.tail_cons]
      exact take_drop_take a.data a.shape.tail.prod i _ hi
    have htb : (⟨(a.row_count - a.trailing_fill_rows) :: a.shape.tail,
        a.data.take ((a.row_count - a.trailing_fill_rows) * a.row_len),
        a.fill⟩ : Array α).trailing_fill_rows = 0 ∨
        a.row_count - a.trailing_fill_rows = 0 := by
      rcases Nat.eq_zero_or_pos (a.row_count - a.trailing_fill_rows) with h0 | hpos
      · exact Or.inr h0
      · left
        obtain ⟨m, hm⟩ : ∃ m, a.row_count - a.trailing_fill_rows = m + 1 :=
          ⟨a.row_count - a.trailing_fill_rows - 1, by omega⟩
        have htl : a.trailing_fill_rows < a.row_count := by omega
        have hlenr : a.rows.length = a.row_count := by simp [Array.rows]
        have hlt : (a.rows.reverse.takeWhile
            (fun r => r.all (fun x => ArrayValue.is_fill_value x))).length <
            a.rows.reverse.length := by
          rw [List.length_reverse, hlenr]
          exact htl
        have hstop3 := takeWhile_stop
          (fun r => r.all (fun x => ArrayValue.is_fill_value x)) a.rows.reverse hlt
        have hidx : a.rows.reverse.get
            ⟨(a.rows.reverse.takeWhile
              (fun r => r.all (fun x => ArrayValue.is_fill_value x))).length, hlt⟩ =
            a.row m := by
          rw [List.get_eq_getElem, List.getElem_reverse, rows_getElem a _ (by omega)]
          have hj : a.rows.length - 1 -
              (a.rows.reverse.takeWhile
                (fun r => r.all (fun x => ArrayValue.is_fill_value x))).length = m := by
            have h2 : (a.rows.reverse.takeWhile
                (fun r => r.all (fun x => ArrayValue.is_fill_value x))).length =
                a.trailing_fill_rows := rfl
            omega
          exact congrArg a.row hj
        have hrowm : (a.row m).all (fun x => ArrayValue.is_fill_value x) = false := by
          rw [← hidx]; exact hstop3
        have hbrowm : ((⟨(a.row_count - a.trailing_fill_rows) :: a.shape.tail,
            a.data.take ((a.row_count - a.trailing_fill_rows) * a.row_len),
            a.fill⟩ : Array α).row m).all
              (fun x => ArrayValue.is_fill_value x) = false := by
          rw [hb_row m (by omega)]; exact hrowm
        rw [Array.trailing_fill_rows]
        have hbrows : (⟨(a.row_count - a.trailing_fill_rows) :: a.shape.tail,
            a.data.take ((a.row_count - a.trailing_fill_rows) * a.row_len),
            a.fill⟩ : Array α).rows =
            (List.range (m + 1)).map
              (⟨(a.row_count - a.trailing_fill_rows) :: a.shape.tail,
                a.data.take ((a.row_count - a.trailing_fill_rows) * a.row_len),
                a.fill⟩ : Array α).row := by
          rw [Array.rows]
          have hcount : (⟨(a.row_count - a.trailing_fill_rows) :: a.shape.tail,
              a.data.take ((a.row_count - a.trailing_fill_rows) * a.row_len),
              a.fill⟩ : Array α).row_count = m + 1 := by
            rw [Array.row_count]; simpa using hm
          rw [hcount]
        rw [hbrows, List.range_succ, List.map_append, List.reverse_append]
        simp only [List.map_cons, List.map_nil, List.reverse_cons, List.reverse_nil,
          List.nil_append, List.singleton_append]
        rw [List.takeWhile_cons, hbrowm]
        rfl
    rcases htb with htb0 | hnl0
    · rw [htb0]
      show (⟨((⟨(a.row_count - a.trailing_fill_rows) :: a.shape.tail,
          a.data.take ((a.row_count - a.trailing_fill_rows) * a.row_len),
          a.fill⟩ : Array α).row_count - 0) :: a.shape.tail, _, a.fill⟩ : Array α) = _
      simp only [Array.row_count, Array.row_len, List.headD, List.tail_cons,
        Nat.sub_zero, List.take_take, Nat.min_self]
    · rw [hnl0]
      simp [Array.trailing_fill_rows, Array.rows, Array.row_count, Array.row_len]

/-- Witness for C6 at a concrete fill-flagged 3×2 array with two trailing
all-fill rows. -/
theorem truncate_idempotent_witness :
    validate_shape ([3, 2] : List Nat)
      [F64.num 1, F64.nan, F64.nan, F64.nan, F64.nan, F64.nan] ∧
    (⟨[3, 2], [F64.num 1, F64.nan, F64.nan, F64.nan, F64.nan, F64.nan],
        true⟩ : Array F64).truncate.truncate =
      (⟨[3, 2], [F64.num 1, F64.nan, F64.nan, F64.nan, F64.nan, F64.nan],
        true⟩ : Array F64).truncate :=
  ⟨by decide,
    truncate_idempotent
      (⟨[3, 2], [F64.num 1, F64.nan, F64.nan, F64.nan, F64.nan, F64.nan],
        true⟩ : Array F64) (by decide)⟩

end Uiua
